import Mathlib

/-!
Verification of the buffer/workspace/sidebar/search core of the `reditor`
terminal text editor, shallowly embedded in Lean.

Machine integers (`u16`, `usize`) are modelled as `Nat`: every cast in the
source goes upward (`u16 as usize`), so no wrapping occurs on the code paths
modelled here.  Rust `Vec<T>` becomes `List T`, `char` becomes `Char`,
`String` becomes `String` or `List Char` as convenient.  Fallible I/O is
made explicit with `Option`.
-/

namespace Reditor

/-- Structure `BufferFile` from `src/buffer_file.rs`: one open document. -/
structure BufferFile where
  filename : String
  file_matrix : List (List Char)
  modified : Bool
  cursor_row : Nat
  cursor_col : Nat
  initial_row : Nat
  initial_column : Nat
deriving Repr, DecidableEq

/-- One step of Rust `str::lines`: a segment that was terminated by `'\n'`
has one trailing `'\r'` stripped (CRLF handling of `str::lines`).
`acc` holds the current segment reversed. -/
def stripCRrev (acc : List Char) : List Char :=
  match acc with
  | [] => []
  | c :: rest => if c = '\r' then rest.reverse else (c :: rest).reverse

/-- Worker for `rustLines`; `acc` is the current segment, reversed. -/
def rustLinesAux (acc : List Char) : List Char → List (List Char)
  | [] => if acc.isEmpty then [] else [acc.reverse]
  | c :: rest =>
    if c = '\n' then stripCRrev acc :: rustLinesAux [] rest
    else rustLinesAux (c :: acc) rest

/-- Rust `str::lines` on a character list: split on `'\n'`, strip a `'\r'`
that immediately precedes a `'\n'`, no empty segment after a final
terminator, and a final segment without `'\n'` keeps a trailing `'\r'`. -/
def rustLines (content : List Char) : List (List Char) :=
  rustLinesAux [] content

/-- Function `BufferFile::get_file_matrix`: split the file content into lines;
an empty result becomes the single empty line. -/
def get_file_matrix (content : List Char) : List (List Char) :=
  let matrix := rustLines content
  if matrix.isEmpty then [[]] else matrix

/-- The content written by `BufferFile::save`: lines joined by `"\n"`. -/
def joinLines (matrix : List (List Char)) : List Char :=
  List.intercalate ['\n'] matrix

/-- Method `BufferFile::add_char`: insert `character` at `column` of line `row`;
out-of-range `row` is a no-op, `column ≥` line length appends. -/
def add_char (b : BufferFile) (character : Char) (column row : Nat) : BufferFile :=
  if row ≥ b.file_matrix.length then b
  else
    let fileRow := b.file_matrix.getD row []
    let fileRow' :=
      if column < fileRow.length then fileRow.insertIdx column character
      else fileRow ++ [character]
    { b with file_matrix := b.file_matrix.set row fileRow', modified := true }

/-- Method `BufferFile::remove_char`: backspace at `(column, row)`.  The returned
`Bool` is `true` exactly when two lines were merged. -/
def remove_char (b : BufferFile) (column row : Nat) : Bool × BufferFile :=
  if row ≥ b.file_matrix.length then (false, b)
  else if column > 0 then
    let fileRow := b.file_matrix.getD row []
    let fileRow' :=
      if column ≤ fileRow.length then fileRow.eraseIdx (column - 1) else fileRow
    (false, { b with file_matrix := b.file_matrix.set row fileRow', modified := true })
  else if row > 0 then
    let currentLine := b.file_matrix.getD row []
    let erased := b.file_matrix.eraseIdx row
    (true, { b with
              file_matrix := erased.modify (fun prev => prev ++ currentLine) (row - 1),
              modified := true })
  else
    (false, b)

/-- Method `BufferFile::split_line`: split line `row` at `column`, inserting the
tail (empty when `column ≥` line length) as a new line at `row + 1`. -/
def split_line (b : BufferFile) (column row : Nat) : BufferFile :=
  if row ≥ b.file_matrix.length then b
  else
    let fileRow := b.file_matrix.getD row []
    let front := if column < fileRow.length then fileRow.take column else fileRow
    let newLine := if column < fileRow.length then fileRow.drop column else []
    { b with
       file_matrix := (b.file_matrix.set row front).insertIdx (row + 1) newLine,
       modified := true }

/-- Method `BufferFile::get_line_length`: 0 when `row` is out of range. -/
def get_line_length (b : BufferFile) (row : Nat) : Nat :=
  if row < b.file_matrix.length then (b.file_matrix.getD row []).length else 0

/-- Method `Display::offset_lines_number` from `src/display.rs`: the gutter width,
`line_count.to_string().chars().count() + 2`. -/
def offset_lines_number (file_matrix : List (List Char)) : Nat :=
  (Nat.repr file_matrix.length).length + 2

/-- Constructor `BufferFile::new(path)` after a successful read of `content`
(`src/buffer_file.rs`): fresh buffer with cleared flags and cursor. -/
def BufferFile.fromRead (path : String) (content : List Char) : BufferFile :=
  { filename := path
    file_matrix := get_file_matrix content
    modified := false
    cursor_row := 0
    cursor_col := 0
    initial_row := 0
    initial_column := 0 }

/-- Structure `Workspace` from `src/workspace.rs`: the open buffers and the active tab. -/
structure Workspace where
  buffers : List BufferFile
  active_index : Nat
deriving Repr, DecidableEq

/-- Method `Workspace::open_file`, with the file content read on a cache miss passed
in explicitly (the filesystem read, made a parameter): switch to the first
buffer whose `filename` equals `path`, or append a fresh buffer and activate
it. -/
def open_file (ws : Workspace) (path : String) (content : List Char) : Workspace :=
  match ws.buffers.findIdx? (fun buf => buf.filename == path) with
  | some i => { ws with active_index := i }
  | none =>
    { buffers := ws.buffers ++ [BufferFile.fromRead path content]
      active_index := ws.buffers.length }

/-- Method `Workspace::open_file` with the fallibility of `File::open` /
`read_to_string` explicit: `BufferFile::new` calls `.unwrap()` on both, so a
failed read (`readResult = none`) on a path that is not already open panics,
modelled as `none`. -/
def open_file_checked (ws : Workspace) (path : String)
    (readResult : Option (List Char)) : Option Workspace :=
  match ws.buffers.findIdx? (fun buf => buf.filename == path) with
  | some i => some { ws with active_index := i }
  | none =>
    match readResult with
    | some content =>
      some { buffers := ws.buffers ++ [BufferFile.fromRead path content]
             active_index := ws.buffers.length }
    | none => none

/-- Rust `char::to_lowercase`, also the per-character step of `String::to_lowercase`,
as a character sequence.  (The simple single-character mapping; it agrees
with Rust on ASCII, which is all the search claims exercise.) -/
def charToLowercase (c : Char) : List Char :=
  [c.toLower]

/-- Structure `FileEntry` from `src/sidebar.rs`: one node of the file tree. -/
inductive FileEntry where
  | mk (name : String) (path : String) (is_dir : Bool)
       (children : List FileEntry) (expanded : Bool) (depth : Nat)

def FileEntry.name : FileEntry → String
  | .mk n _ _ _ _ _ => n

def FileEntry.path : FileEntry → String
  | .mk _ p _ _ _ _ => p

def FileEntry.is_dir : FileEntry → Bool
  | .mk _ _ d _ _ _ => d

def FileEntry.children : FileEntry → List FileEntry
  | .mk _ _ _ c _ _ => c

def FileEntry.expanded : FileEntry → Bool
  | .mk _ _ _ _ e _ => e

def FileEntry.depth : FileEntry → Nat
  | .mk _ _ _ _ _ d => d

/-- Structure `FlatEntry` from `src/sidebar.rs`: one row of the flat projection. -/
structure FlatEntry where
  name : String
  path : String
  is_dir : Bool
  depth : Nat
  expanded : Bool
deriving Repr, DecidableEq

/-- The `FlatEntry` pushed for a `FileEntry` in the flatten functions. -/
def FileEntry.toFlat (e : FileEntry) : FlatEntry :=
  { name := e.name, path := e.path, is_dir := e.is_dir
    depth := e.depth, expanded := e.expanded }

/-- Rust `str::contains` on character lists: substring containment. -/
def containsSubstring (hay needle : List Char) : Bool :=
  (List.range (hay.length + 1)).any (fun i => needle.isPrefixOf (hay.drop i))

/-- Expression `entry.name.to_lowercase().contains(query)` from
`Sidebar::flatten_entries_filtered`. -/
def nameMatches (name : String) (query : List Char) : Bool :=
  containsSubstring (name.data.flatMap charToLowercase) query

mutual
/-- Method `Sidebar::flatten_entries_filtered` (`src/sidebar.rs`), as the list the
loop appends to `flat_cache` for one entry: the entry itself is pushed only
when its lowercased name contains `query`; an expanded directory's children
are traversed whether or not the directory matched. -/
def flattenFilteredEntry (query : List Char) : FileEntry → List FlatEntry
  | .mk name path is_dir children expanded depth =>
    let isMatch := nameMatches name query
    if isMatch || is_dir then
      (if isMatch then [FileEntry.toFlat (.mk name path is_dir children expanded depth)]
       else []) ++
        (if is_dir && expanded then flattenFilteredList query children else [])
    else []

/-- Method `Sidebar::flatten_entries_filtered` over a list of entries. -/
def flattenFilteredList (query : List Char) : List FileEntry → List FlatEntry
  | [] => []
  | e :: rest => flattenFilteredEntry query e ++ flattenFilteredList query rest
end

/-- The inner column loop of `Editor::navigate_to_next_match`
(`src/editor.rs`): scan match start columns `startCol, startCol+1, …,
lineLower.length - query.length` and return the first hit. -/
def findMatchInLine (lineLower query : List Char) (startCol : Nat) : Option Nat :=
  if lineLower.length ≥ query.length then
    (List.range' startCol (lineLower.length - query.length + 1 - startCol)).find?
      (fun col => query.isPrefixOf (lineLower.drop col))
  else none

/-- Method `Editor::navigate_to_next_match` (`src/editor.rs`), reduced to its
search core: given the active buffer's matrix, the raw query, and the caret's
absolute `(row, column)`, return the `(row, column)` passed to
`jump_to_position`, or `none` when nothing is found (no state change). -/
def navigate_to_next_match (matrix : List (List Char)) (searchQuery : List Char)
    (currentRow currentCol : Nat) : Option (Nat × Nat) :=
  let query := searchQuery.flatMap charToLowercase
  if query.isEmpty then none
  else
    let totalLines := matrix.length
    let searchCol := currentCol + 1
    (List.range totalLines).findSome? (fun offset =>
      let rowIdx := (currentRow + offset) % totalLines
      let line := matrix.getD rowIdx []
      let lineLower := line.flatMap charToLowercase
      let startCol := if offset == 0 then searchCol else 0
      (findMatchInLine lineLower query startCol).map (fun col => (rowIdx, col)))

/-- Reachability in the file tree through expanded directories only: the
entries a depth-first traversal that descends only into expanded directories
can visit, starting from a given entry list. -/
inductive Reachable : List FileEntry → FileEntry → Prop
  | here {entries : List FileEntry} {e : FileEntry} : e ∈ entries → Reachable entries e
  | child {entries : List FileEntry} {e : FileEntry} (d : FileEntry) :
      d ∈ entries → d.is_dir = true → d.expanded = true →
      Reachable d.children e → Reachable entries e

/-- Buffer with the single line "a", unmodified; used by concrete checks. -/
def sampleBuffer : BufferFile :=
  { filename := "f", file_matrix := [['a']], modified := false,
    cursor_row := 0, cursor_col := 0, initial_row := 0, initial_column := 0 }

/-- Setting an index of a list to the value already there is the identity. -/
theorem set_getD_self {α : Type} (l : List α) (d : α) (i : Nat) (h : i < l.length) :
    l.set i (l.getD i d) = l := by
  induction l generalizing i with
  | nil => simp at h
  | cons a as ih =>
    cases i with
    | zero => simp
    | succ n => simpa using ih n (by simpa using h)

/-- C9: for every total line count, the gutter width equals the number of
decimal digits of the line count plus 2; in particular 999 total lines give
width 5 and 1000 total lines give width 6. -/
theorem C9_gutter_width (m : List (List Char)) :
    offset_lines_number m = (Nat.toDigits 10 m.length).length + 2 ∧
    (m.length = 999 → offset_lines_number m = 5) ∧
    (m.length = 1000 → offset_lines_number m = 6) := by
  refine ⟨?_, ?_, ?_⟩
  · simp [offset_lines_number, Nat.repr, List.asString, String.length]
  · intro h; unfold offset_lines_number; rw [h]; rfl
  · intro h; unfold offset_lines_number; rw [h]; rfl

set_option maxRecDepth 20000 in
/-- Witness for C9 at a concrete 999-line and 1000-line document. -/
theorem C9_gutter_width_witness :
    offset_lines_number (List.replicate 999 ([] : List Char)) = 5 ∧
    offset_lines_number (List.replicate 1000 ([] : List Char)) = 6 :=
  ⟨(C9_gutter_width (List.replicate 999 [])).2.1 (by simp),
   (C9_gutter_width (List.replicate 1000 [])).2.2 (by simp)⟩

/-- C1 counterexample: on the one-line document "a" (unmodified), deleting at
column 2 — in bounds for the row but beyond the line's length — leaves the
content unchanged yet sets the modified flag, so the operation is not a
no-op on the whole Document state as the claim requires. -/
theorem C1_delete_beyond_line_counterexample :
    sampleBuffer.modified = false ∧
    (remove_char sampleBuffer 2 0).2.file_matrix = sampleBuffer.file_matrix ∧
    (remove_char sampleBuffer 2 0).2.modified = true := by decide

/-- C1 amended: with an out-of-bounds row all three operations are silent
no-ops returning the Document unchanged, modified flag included; but with an
in-bounds row, delete (col > 0) with a column strictly beyond the line's
length keeps the content and still sets the modified flag, while for any
column at or beyond the line's length insert appends the character at the
end of the line and split inserts an empty continuation line — all three
marking the Document modified. -/
theorem C1_out_of_bounds_ops (b : BufferFile) (ch : Char) (col row : Nat) :
    (row ≥ b.file_matrix.length →
      add_char b ch col row = b ∧
      remove_char b col row = (false, b) ∧
      split_line b col row = b) ∧
    (row < b.file_matrix.length → col > (b.file_matrix.getD row []).length →
      0 < col → remove_char b col row = (false, { b with modified := true })) ∧
    (row < b.file_matrix.length → col ≥ (b.file_matrix.getD row []).length →
      add_char b ch col row =
        { b with
           file_matrix := b.file_matrix.set row (b.file_matrix.getD row [] ++ [ch]),
           modified := true } ∧
      split_line b col row =
        { b with file_matrix := b.file_matrix.insertIdx (row + 1) [],
                 modified := true }) := by
  refine ⟨?_, ?_, ?_⟩
  · intro h
    refine ⟨?_, ?_, ?_⟩ <;> simp [add_char, remove_char, split_line, h]
  · intro hrow hcol hpos
    have h1 : ¬ row ≥ b.file_matrix.length := by omega
    have hle : ¬ (col ≤ (b.file_matrix.getD row []).length) := by omega
    simp only [remove_char]
    rw [if_neg h1, if_pos hpos, if_neg hle, set_getD_self _ _ _ hrow]
  · intro hrow hcol
    have h1 : ¬ row ≥ b.file_matrix.length := by omega
    have hlt : ¬ (col < (b.file_matrix.getD row []).length) := by omega
    constructor
    · simp only [add_char]
      rw [if_neg h1, if_neg hlt]
    · simp only [split_line]
      rw [if_neg h1, if_neg hlt, if_neg hlt, set_getD_self _ _ _ hrow]

/-- Witness for C1 amended: out-of-bounds row for insert, over-long column
for delete, and the append position col = line length for split. -/
theorem C1_out_of_bounds_ops_witness :
    add_char sampleBuffer 'z' 0 5 = sampleBuffer ∧
    remove_char sampleBuffer 2 0 = (false, { sampleBuffer with modified := true }) ∧
    split_line sampleBuffer 1 0 =
      { sampleBuffer with file_matrix := sampleBuffer.file_matrix.insertIdx 1 [],
                          modified := true } :=
  ⟨((C1_out_of_bounds_ops sampleBuffer 'z' 0 5).1 (by decide)).1,
   (C1_out_of_bounds_ops sampleBuffer 'z' 2 0).2.1 (by decide) (by decide) (by decide),
   ((C1_out_of_bounds_ops sampleBuffer 'z' 1 0).2.2 (by decide) (by decide)).2⟩

/-- C6: opening any file yields at least one line, and every buffer
operation preserves nonemptiness of the line sequence. -/
theorem C6_line_sequence_nonempty (b : BufferFile) (ch : Char) (col row : Nat)
    (content : List Char) :
    get_file_matrix content ≠ [] ∧
    (b.file_matrix ≠ [] →
      (add_char b ch col row).file_matrix ≠ [] ∧
      (remove_char b col row).2.file_matrix ≠ [] ∧
      (split_line b col row).file_matrix ≠ []) := by
  constructor
  · unfold get_file_matrix
    by_cases h : (rustLines content).isEmpty
    · simp [h]
    · simpa [h] using (by simpa [List.isEmpty_iff] using h)
  · intro hne
    have hlen : 0 < b.file_matrix.length := List.length_pos.mpr hne
    refine ⟨?_, ?_, ?_⟩
    · unfold add_char
      by_cases h : row ≥ b.file_matrix.length
      · simpa [h]
      · rw [if_neg h]
        simp only [ne_eq, ← List.length_pos]
        simpa using hlen
    · unfold remove_char
      by_cases h : row ≥ b.file_matrix.length
      · simpa [h]
      · rw [if_neg h]
        by_cases hc : col > 0
        · rw [if_pos hc]
          simp only [ne_eq, ← List.length_pos]
          simpa using hlen
        · rw [if_neg hc]
          by_cases hr : row > 0
          · rw [if_pos hr]
            simp only [ne_eq, ← List.length_pos]
            rw [List.length_modify, List.length_eraseIdx_of_lt (by omega)]
            omega
          · simpa [hr]
    · unfold split_line
      by_cases h : row ≥ b.file_matrix.length
      · simpa [h]
      · rw [if_neg h]
        simp only [ne_eq, ← List.length_pos]
        rw [List.length_insertIdx _ _ (by simpa using Nat.le_of_lt_succ (by omega))]
        omega

/-- Witness for C6 on a concrete nonempty document. -/
theorem C6_line_sequence_nonempty_witness :
    get_file_matrix [] ≠ [] ∧ (remove_char sampleBuffer 0 0).2.file_matrix ≠ [] :=
  ⟨(C6_line_sequence_nonempty sampleBuffer 'z' 0 0 []).1,
   ((C6_line_sequence_nonempty sampleBuffer 'z' 0 0 []).2 (by decide)).2.1⟩

/-- A successful first-index search has a witness in the list. -/
theorem exists_of_findIdx?_eq_some {α : Type} {p : α → Bool} {l : List α} {i : Nat}
    (h : l.findIdx? p = some i) : ∃ x ∈ l, p x = true := by
  by_contra hno
  push_neg at hno
  have hnone : l.findIdx? p = none :=
    List.findIdx?_eq_none_iff.mpr (fun x hx => by simpa using hno x hx)
  rw [hnone] at h
  exact Option.noConfusion h

/-- Opening a path that some buffer already carries leaves the buffer list
unchanged. -/
theorem open_file_buffers_of_mem (ws : Workspace) (path : String) (c : List Char)
    (h : ∃ b ∈ ws.buffers, b.filename = path) :
    (open_file ws path c).buffers = ws.buffers := by
  rcases h with ⟨b, hb, hbp⟩
  cases hfind : ws.buffers.findIdx? (fun buf => buf.filename == path) with
  | some i => simp [open_file, hfind]
  | none =>
    rw [List.findIdx?_eq_none_iff] at hfind
    have := hfind b hb
    simp [hbp] at this

/-- After any open of `path`, some buffer carries `path`. -/
theorem open_file_mem (ws : Workspace) (path : String) (c : List Char) :
    ∃ b ∈ (open_file ws path c).buffers, b.filename = path := by
  cases hfind : ws.buffers.findIdx? (fun buf => buf.filename == path) with
  | some i =>
    rcases exists_of_findIdx?_eq_some hfind with ⟨x, hx, hpx⟩
    exact ⟨x, by simp [open_file, hfind, hx], by simpa using hpx⟩
  | none =>
    refine ⟨BufferFile.fromRead path c, by simp [open_file, hfind], rfl⟩

/-- A successful first-index search returns the index of the first element
satisfying the predicate, for any starting counter `s`. -/
theorem findIdx?_go_spec {α : Type} (p : α → Bool) :
    ∀ (l : List α) (s i : Nat), List.findIdx? p l s = some i →
      s ≤ i ∧ (∃ x, l[i - s]? = some x ∧ p x = true) ∧
      ∀ j, j < i - s → ∀ x, l[j]? = some x → p x = false := by
  intro l
  induction l with
  | nil => intro s i h; simp [List.findIdx?] at h
  | cons a as ih =>
    intro s i h
    rw [List.findIdx?_cons] at h
    by_cases hp : p a
    · rw [if_pos hp] at h
      obtain rfl : s = i := by simpa using h
      refine ⟨Nat.le_refl _, ⟨a, by simp, hp⟩, ?_⟩
      intro j hj x _
      omega
    · rw [if_neg hp] at h
      rcases ih (s + 1) i h with ⟨hsi, ⟨x, hx, hpx⟩, hearlier⟩
      rw [Bool.not_eq_true] at hp
      refine ⟨by omega, ⟨x, ?_, hpx⟩, ?_⟩
      · have hstep : i - s = (i - (s + 1)) + 1 := by omega
        rw [hstep]
        simpa using hx
      · intro j hj y hy
        cases j with
        | zero =>
          have hya : a = y := by simpa using hy
          rw [← hya]
          exact hp
        | succ k =>
          have hk : k < i - (s + 1) := by omega
          exact hearlier k hk y (by simpa using hy)

/-- C8: open never duplicates — when a buffer with the path already exists the
buffer list is unchanged (only the active index moves); when none exists a
fresh buffer is appended and activated; opening the same path twice leaves
exactly one buffer with that path and the second open changes no buffers. -/
theorem C8_open_no_duplicate (ws : Workspace) (path : String) (c c2 : List Char) :
    ((∃ b ∈ ws.buffers, b.filename = path) →
      (open_file ws path c).buffers = ws.buffers ∧
      (∃ x, ws.buffers[(open_file ws path c).active_index]? = some x ∧
        x.filename = path) ∧
      ∀ j, j < (open_file ws path c).active_index →
        ∀ y, ws.buffers[j]? = some y → y.filename ≠ path) ∧
    ((∀ b ∈ ws.buffers, b.filename ≠ path) →
      open_file ws path c =
        { buffers := ws.buffers ++ [BufferFile.fromRead path c],
          active_index := ws.buffers.length } ∧
      ((open_file ws path c).buffers.countP (fun b => b.filename == path)) = 1) ∧
    (open_file (open_file ws path c) path c2).buffers = (open_file ws path c).buffers := by
  refine ⟨?_, ?_, ?_⟩
  · intro hex
    cases hfind : ws.buffers.findIdx? (fun buf => buf.filename == path) with
    | none =>
      rw [List.findIdx?_eq_none_iff] at hfind
      rcases hex with ⟨b, hb, hbp⟩
      have := hfind b hb
      simp [hbp] at this
    | some i =>
      have hws : open_file ws path c = { ws with active_index := i } := by
        simp [open_file, hfind]
      rcases findIdx?_go_spec _ ws.buffers 0 i hfind with ⟨_, ⟨x, hx, hpx⟩, hearlier⟩
      rw [hws]
      refine ⟨rfl, ⟨x, by simpa using hx, by simpa using hpx⟩, ?_⟩
      intro j hj y hy
      have hfalse := hearlier j (by simpa using hj) y hy
      simpa using hfalse
  · intro hall
    have hnone : ws.buffers.findIdx? (fun buf => buf.filename == path) = none := by
      rw [List.findIdx?_eq_none_iff]
      intro x hx
      simpa using hall x hx
    constructor
    · simp [open_file, hnone]
    · rw [open_file, hnone]
      rw [List.countP_append, List.countP_eq_zero.mpr (by intro x hx; simpa using hall x hx)]
      simp [List.countP, List.countP.go, BufferFile.fromRead]
  · exact open_file_buffers_of_mem (open_file ws path c) path c2 (open_file_mem ws path c)

/-- Witness for C8: reopening "f" on a workspace already holding it points
the active index at that buffer while changing no buffers, and opening a
fresh path on an empty workspace appends exactly one buffer for it. -/
theorem C8_open_no_duplicate_witness :
    ((open_file { buffers := [sampleBuffer], active_index := 0 } "f" ['x']).buffers
        = [sampleBuffer] ∧
      (∃ x, ([sampleBuffer] :
          List BufferFile)[(open_file { buffers := [sampleBuffer], active_index := 0 }
            "f" ['x']).active_index]? = some x ∧ x.filename = "f") ∧
      ∀ j, j < (open_file { buffers := [sampleBuffer], active_index := 0 }
          "f" ['x']).active_index →
        ∀ y, ([sampleBuffer] : List BufferFile)[j]? = some y → y.filename ≠ "f") ∧
    open_file { buffers := [], active_index := 0 } "a" ['x'] =
      { buffers := [BufferFile.fromRead "a" ['x']], active_index := 0 } ∧
    (open_file { buffers := [], active_index := 0 } "a" ['x']).buffers.countP
      (fun b => b.filename == "a") = 1 :=
  ⟨(C8_open_no_duplicate { buffers := [sampleBuffer], active_index := 0 } "f" ['x'] ['y']).1
      ⟨sampleBuffer, List.mem_cons_self _ _, rfl⟩,
   ((C8_open_no_duplicate { buffers := [], active_index := 0 } "a" ['x'] ['y']).2.1 (by simp)).1,
   ((C8_open_no_duplicate { buffers := [], active_index := 0 } "a" ['x'] ['y']).2.1 (by simp)).2⟩

/-- C10: the open operation is partial at its interface — on a path that is
not already open whose read fails it panics (modelled as `none`), and it
returns normally whenever the path is already open or the read succeeds. -/
theorem C10_open_unreadable_panics (ws : Workspace) (path : String)
    (r : Option (List Char)) (c : List Char) :
    open_file_checked { buffers := [], active_index := 0 } path none = none ∧
    ((∀ b ∈ ws.buffers, b.filename ≠ path) → open_file_checked ws path none = none) ∧
    ((∃ b ∈ ws.buffers, b.filename = path) →
      (open_file_checked ws path r).isSome = true) ∧
    open_file_checked ws path (some c) = some (open_file ws path c) := by
  refine ⟨by simp [open_file_checked], ?_, ?_, ?_⟩
  · intro hall
    have hnone : ws.buffers.findIdx? (fun buf => buf.filename == path) = none := by
      rw [List.findIdx?_eq_none_iff]
      intro x hx
      simpa using hall x hx
    simp [open_file_checked, hnone]
  · rintro ⟨b, hb, hbp⟩
    cases hfind : ws.buffers.findIdx? (fun buf => buf.filename == path) with
    | some i => simp [open_file_checked, hfind]
    | none =>
      rw [List.findIdx?_eq_none_iff] at hfind
      have := hfind b hb
      simp [hbp] at this
  · cases hfind : ws.buffers.findIdx? (fun buf => buf.filename == path) with
    | some i => simp [open_file_checked, open_file, hfind]
    | none => simp [open_file_checked, open_file, hfind]

/-- Witness for C10: a panic on an unreadable fresh path, a normal return on
an already-open path. -/
theorem C10_open_unreadable_panics_witness :
    open_file_checked { buffers := [sampleBuffer], active_index := 0 } "nofile" none = none ∧
    (open_file_checked { buffers := [sampleBuffer], active_index := 0 } "f" none).isSome = true :=
  ⟨(C10_open_unreadable_panics { buffers := [sampleBuffer], active_index := 0 }
      "nofile" none ['x']).2.1 (by decide),
   (C10_open_unreadable_panics { buffers := [sampleBuffer], active_index := 0 }
      "f" none ['x']).2.2.1 ⟨sampleBuffer, by simp, rfl⟩⟩

/-- Removing line `row` and appending its content to line `row - 1`,
expressed with take/drop: the list-level effect of the merge branch of
`remove_char`. -/
theorem erase_modify_eq (m : List (List Char)) :
    ∀ row, 0 < row → row < m.length →
    (m.eraseIdx row).modify (fun prev => prev ++ m.getD row []) (row - 1) =
      m.take (row - 1) ++ (m.getD (row - 1) [] ++ m.getD row []) :: m.drop (row + 1) := by
  induction m with
  | nil => intro row _ h2; simp at h2
  | cons a as ih =>
    intro row h1 h2
    match row, h1 with
    | 1, _ =>
      cases as with
      | nil => simp at h2
      | cons b bs => simp [List.eraseIdx, List.modify]
    | (r + 2), _ =>
      have step := ih (r + 1) (by omega) (by simp only [List.length_cons] at h2; omega)
      simpa [List.eraseIdx, List.modify] using step

/-- C3: delete with `col > 0` removes exactly the character at index
`col - 1` of line `row` and reports no merge; with `col = 0` and `row > 0`
it removes line `row`, appends its content to line `row - 1`, and reports a
merge — exactly in this case; with `col = 0` and `row = 0` nothing changes;
and on lines ["abc", "de"], insert of 'X' at (3,0) gives "abcX" and then
delete at (0,1) merges to "abcXde" with the merge result. -/
theorem C3_delete_semantics (b : BufferFile) (col row : Nat)
    (h : row < b.file_matrix.length) :
    (0 < col → col ≤ (b.file_matrix.getD row []).length →
      remove_char b col row =
        (false, { b with
           file_matrix :=
             b.file_matrix.set row ((b.file_matrix.getD row []).eraseIdx (col - 1)),
           modified := true })) ∧
    (0 < row →
      remove_char b 0 row =
        (true, { b with
           file_matrix :=
             b.file_matrix.take (row - 1) ++
               (b.file_matrix.getD (row - 1) [] ++ b.file_matrix.getD row []) ::
                 b.file_matrix.drop (row + 1),
           modified := true })) ∧
    remove_char b 0 0 = (false, b) ∧
    remove_char (add_char (BufferFile.fromRead "t" ['a','b','c','\n','d','e']) 'X' 3 0) 0 1 =
      (true, { BufferFile.fromRead "t" ['a','b','c','\n','d','e'] with
                file_matrix := [['a','b','c','X','d','e']], modified := true }) := by
  refine ⟨?_, ?_, ?_, by decide⟩
  · intro hpos hle
    simp only [remove_char]
    rw [if_neg (by omega), if_pos hpos, if_pos hle]
  · intro hrow
    simp only [remove_char]
    rw [if_neg (by omega), if_neg (by omega), if_pos hrow,
        erase_modify_eq b.file_matrix row hrow h]
  · by_cases hz : b.file_matrix.length = 0
    · simp only [remove_char]
      rw [if_pos (by omega)]
    · simp only [remove_char]
      rw [if_neg (by omega), if_neg (by omega), if_neg (by omega)]

/-- Witness for C3 on the one-line buffer "a": backspace at column 1 deletes
the character left of the caret. -/
theorem C3_delete_semantics_witness :
    remove_char sampleBuffer 1 0 =
      (false, { sampleBuffer with file_matrix := [[]], modified := true }) :=
  ((C3_delete_semantics sampleBuffer 1 0 (by decide)).1 (by decide) (by decide)).trans
    (by decide)

/-- C7: splitting line `row` at any column `col ≤` its length and then
deleting at column 0 of line `row + 1` merges the two halves back,
reconstructing the original line content of the whole Document exactly. -/
theorem C7_split_delete_round_trip (b : BufferFile) (col row : Nat)
    (hrow : row < b.file_matrix.length)
    (_hcol : col ≤ (b.file_matrix.getD row []).length) :
    (remove_char (split_line b col row) 0 (row + 1)).2.file_matrix = b.file_matrix := by
  simp only [split_line]
  rw [if_neg (by omega)]
  simp only [remove_char]
  have hsetlen : (b.file_matrix.set row
      (if col < (b.file_matrix.getD row []).length then (b.file_matrix.getD row []).take col
       else b.file_matrix.getD row [])).length = b.file_matrix.length := by
    simp
  have hlen : (List.insertIdx (row + 1)
      (if col < (b.file_matrix.getD row []).length then (b.file_matrix.getD row []).drop col
       else [])
      (b.file_matrix.set row
        (if col < (b.file_matrix.getD row []).length then (b.file_matrix.getD row []).take col
         else b.file_matrix.getD row []))).length = b.file_matrix.length + 1 := by
    rw [List.length_insertIdx _ _ (by omega), hsetlen]
  rw [if_neg (by omega), if_neg (by omega), if_pos (by omega)]
  simp only [Nat.add_sub_cancel]
  rw [List.getD_eq_getElem _ _ (by omega), List.getElem_insertIdx_self _ _ _ (by omega),
      List.eraseIdx_insertIdx,
      List.modify_eq_set_get _ (by omega)]
  simp only [List.get_eq_getElem]
  rw [List.getElem_set_self, List.set_set]
  by_cases hc : col < (b.file_matrix.getD row []).length
  · rw [if_pos hc, if_pos hc, List.take_append_drop]
    exact set_getD_self _ _ _ hrow
  · rw [if_neg hc, if_neg hc, List.append_nil]
    exact set_getD_self _ _ _ hrow

/-- Witness for C7: split "a" at column 1 and merge back. -/
theorem C7_split_delete_round_trip_witness :
    (remove_char (split_line sampleBuffer 1 0) 0 1).2.file_matrix =
      sampleBuffer.file_matrix :=
  C7_split_delete_round_trip sampleBuffer 1 0 (by decide) (by decide)

/-- Splitting step of `rustLines`: consuming a newline-free prefix up to a
`'\n'` emits that prefix (with CRLF stripping) and continues after it. -/
theorem rustLinesAux_split (a : List Char) (hn : '\n' ∉ a) :
    ∀ (acc b : List Char), rustLinesAux acc (a ++ '\n' :: b) =
      stripCRrev (a.reverse ++ acc) :: rustLinesAux [] b := by
  induction a with
  | nil => intro acc b; simp [rustLinesAux]
  | cons c cs ih =>
    intro acc b
    have hc : ¬ (c = '\n') := by
      intro heq; exact hn (heq ▸ List.mem_cons_self c cs)
    have hcs : '\n' ∉ cs := fun hm => hn (List.mem_cons_of_mem c hm)
    simp only [List.cons_append, rustLinesAux, if_neg hc, List.append_eq]
    rw [ih hcs (c :: acc) b]
    simp

/-- Reading a newline-free tail: `rustLines` consumes it as one final
segment, kept literally — a trailing carriage return included — since the
CR strip applies only before a newline terminator. -/
theorem rustLinesAux_no_newline (a : List Char) (hn : '\n' ∉ a) :
    ∀ acc, rustLinesAux acc a =
      if acc.isEmpty && a.isEmpty then [] else [acc.reverse ++ a] := by
  induction a with
  | nil =>
    intro acc
    by_cases h : acc.isEmpty <;> simp [rustLinesAux, h]
  | cons c cs ih =>
    intro acc
    have hc : ¬ (c = '\n') := by
      intro heq; exact hn (heq ▸ List.mem_cons_self c cs)
    have hcs : '\n' ∉ cs := fun hm => hn (List.mem_cons_of_mem c hm)
    simp only [rustLinesAux, if_neg hc]
    rw [ih hcs (c :: acc)]
    simp

/-- C2 counterexample: the file content "a\r\nb" is read with the carriage
return stripped — CRLF is normalized on read, not preserved as literal line
content — and saving the result writes "a\nb". -/
theorem C2_crlf_counterexample :
    get_file_matrix ['a', '\r', '\n', 'b'] = [['a'], ['b']] ∧
    get_file_matrix ['a', '\r', '\n', 'b'] ≠ [['a', '\r'], ['b']] ∧
    joinLines (get_file_matrix ['a', '\r', '\n', 'b']) = ['a', '\n', 'b'] := by
  decide

/-- C2 amended: reading splits on newline boundaries but strips one carriage
return immediately before each newline (CRLF normalized to LF); a segment
not ending in CR splits off literally; save joins the lines with a single
newline and appends no trailing newline. -/
theorem C2_read_save_format (a bTail line : List Char) (rest : List (List Char)) :
    ('\n' ∉ a → rustLines (a ++ '\r' :: '\n' :: bTail) = a :: rustLines bTail) ∧
    ('\n' ∉ a → a.getLast? ≠ some '\r' → rustLines (a ++ '\n' :: bTail) = a :: rustLines bTail) ∧
    ('\n' ∉ a → a ≠ [] → rustLines a = [a]) ∧
    joinLines [line] = line ∧
    (rest ≠ [] → joinLines (line :: rest) = line ++ '\n' :: joinLines rest) := by
  refine ⟨?_, ?_, ?_, ?_, ?_⟩
  · intro hn
    have hn' : '\n' ∉ a ++ ['\r'] := by
      intro hm
      rcases List.mem_append.mp hm with hm | hm
      · exact hn hm
      · simp at hm
    have := rustLinesAux_split (a ++ ['\r']) hn' [] ('\n' :: bTail).tail
    simp only [List.append_assoc, List.cons_append, List.nil_append] at this
    unfold rustLines
    rw [show a ++ '\r' :: '\n' :: bTail = (a ++ ['\r']) ++ '\n' :: bTail by simp]
    rw [rustLinesAux_split (a ++ ['\r']) hn' [] bTail]
    simp [stripCRrev]
  · intro hn hlast
    unfold rustLines
    rw [rustLinesAux_split a hn [] bTail]
    congr 1
    rw [List.append_nil]
    cases hrev : a.reverse with
    | nil =>
      have : a = [] := by simpa using congrArg List.reverse hrev
      simp [this, stripCRrev]
    | cons h t =>
      have hh : ¬ (h = '\r') := by
        intro heq
        apply hlast
        rw [← List.head?_reverse, hrev, heq]
        rfl
      have : a = (h :: t).reverse := by simpa using congrArg List.reverse hrev
      simp [stripCRrev, if_neg hh, this]
  · intro hn hne
    unfold rustLines
    rw [rustLinesAux_no_newline a hn []]
    simp [hne]
  · simp [joinLines, List.intercalate]
  · intro hne
    cases rest with
    | nil => exact absurd rfl hne
    | cons r rs =>
      simp [joinLines, List.intercalate, List.intersperse]

/-- Witness for C2 amended at concrete lines. -/
theorem C2_read_save_format_witness :
    rustLines (['a'] ++ '\r' :: '\n' :: ['b']) = ['a'] :: rustLines ['b'] ∧
    rustLines (['a'] ++ '\n' :: ['b']) = ['a'] :: rustLines ['b'] ∧
    rustLines ['a', '\r'] = [['a', '\r']] ∧
    joinLines [['x'], ['y']] = ['x'] ++ '\n' :: joinLines [['y']] :=
  ⟨(C2_read_save_format ['a'] ['b'] [] []).1 (by decide),
   (C2_read_save_format ['a'] ['b'] [] []).2.1 (by decide) (by decide),
   (C2_read_save_format ['a', '\r'] [] [] []).2.2.1 (by decide) (by decide),
   (C2_read_save_format [] [] ['x'] [['y']]).2.2.2.2 (by decide)⟩

/-- Every row the filtered flatten emits has a name matching the query —
directories included, so a non-matching directory never appears. -/
theorem matches_of_mem_flattenFilteredList (q : List Char) (es : List FileEntry)
    (fe : FlatEntry) (h : fe ∈ flattenFilteredList q es) :
    nameMatches fe.name q = true := by
  match es with
  | [] => simp [flattenFilteredList] at h
  | (.mk n p d ch ex dep) :: rest =>
    rw [flattenFilteredList] at h
    rcases List.mem_append.mp h with h1 | h2
    · rw [flattenFilteredEntry] at h1
      by_cases him : nameMatches n q
      · rcases (by simpa [him] using h1 :
            fe = FileEntry.toFlat (.mk n p d ch ex dep) ∨
              (d = true ∧ ex = true) ∧ fe ∈ flattenFilteredList q ch) with ha | ⟨_, hb⟩
        · rw [ha]
          simpa [FileEntry.toFlat, FileEntry.name] using him
        · exact matches_of_mem_flattenFilteredList q ch fe hb
      · by_cases hd : d
        · rcases (by simpa [him, hd] using h1 :
              ex = true ∧ fe ∈ flattenFilteredList q ch) with ⟨_, hb⟩
          exact matches_of_mem_flattenFilteredList q ch fe hb
        · simp [him, hd] at h1
    · exact matches_of_mem_flattenFilteredList q rest fe h2
termination_by sizeOf es

/-- An entry whose name matches the query is emitted for itself. -/
theorem self_mem_flattenFilteredEntry (q : List Char) (e : FileEntry)
    (hm : nameMatches e.name q = true) : e.toFlat ∈ flattenFilteredEntry q e := by
  match e with
  | .mk n p d ch ex dep =>
    rw [flattenFilteredEntry]
    have hm' : nameMatches n q = true := by simpa [FileEntry.name] using hm
    simp [hm']

/-- Rows emitted for a member entry are rows of the whole list's flatten. -/
theorem mem_flattenFilteredList_of_mem_entry (q : List Char) {es : List FileEntry}
    {x : FlatEntry} (e : FileEntry) (he : e ∈ es)
    (hx : x ∈ flattenFilteredEntry q e) : x ∈ flattenFilteredList q es := by
  induction es with
  | nil => simp at he
  | cons a rest ih =>
    rw [flattenFilteredList]
    rcases List.mem_cons.mp he with rfl | hmem
    · exact List.mem_append_left _ hx
    · exact List.mem_append_right _ (ih hmem)

/-- Rows of an expanded directory's children survive into the directory's
own emission, whether or not the directory's name matches. -/
theorem children_mem_flattenFilteredEntry (q : List Char) (d : FileEntry)
    (hdir : d.is_dir = true) (hex : d.expanded = true) {x : FlatEntry}
    (hx : x ∈ flattenFilteredList q d.children) : x ∈ flattenFilteredEntry q d := by
  match d with
  | .mk n p dd ch ex dep =>
    have hdd : dd = true := by simpa [FileEntry.is_dir] using hdir
    have hexx : ex = true := by simpa [FileEntry.expanded] using hex
    rw [flattenFilteredEntry]
    subst hdd hexx
    have hx' : x ∈ flattenFilteredList q ch := by simpa [FileEntry.children] using hx
    by_cases him : nameMatches n q <;> simp [him, hx']

/-- A reachable entry whose name matches is in the filtered flatten. -/
theorem mem_flatten_of_reachable (q : List Char) (es : List FileEntry) (e : FileEntry)
    (hr : Reachable es e) (hm : nameMatches e.name q = true) :
    e.toFlat ∈ flattenFilteredList q es := by
  induction hr with
  | here hmem =>
    exact mem_flattenFilteredList_of_mem_entry q _ hmem (self_mem_flattenFilteredEntry q _ hm)
  | child d hmem hdir hex _ ih =>
    exact mem_flattenFilteredList_of_mem_entry q d hmem
      (children_mem_flattenFilteredEntry q d hdir hex (ih hm))

/-- C5 amended: with a non-empty query the filtered flatten keeps an entry —
directory or file — in the projection only when its own lowercased name
contains the query; an expanded directory's children are still traversed
when the directory itself does not match, so any entry reachable through
expanded ancestors whose name matches is included. -/
theorem C5_filtered_flatten (q : List Char) (es : List FileEntry)
    (fe : FlatEntry) (e : FileEntry) :
    (fe ∈ flattenFilteredList q es → nameMatches fe.name q = true) ∧
    (Reachable es e → nameMatches e.name q = true →
      e.toFlat ∈ flattenFilteredList q es) :=
  ⟨matches_of_mem_flattenFilteredList q es fe,
   fun hr hm => mem_flatten_of_reachable q es e hr hm⟩

/-- File entry "main.rs" of the counterexample tree. -/
def srcFileEntry : FileEntry := .mk "main.rs" "/src/main.rs" false [] false 1

/-- Expanded directory "src" holding `srcFileEntry`. -/
def srcDirEntry : FileEntry := .mk "src" "/src" true [srcFileEntry] true 0

/-- Counterexample tree: one expanded directory with one file inside. -/
def srcTree : List FileEntry := [srcDirEntry]

/-- C5 counterexample: filtering the tree [src/main.rs] by "main" emits only
the file row — the expanded directory "src", though reachable and a
structural ancestor of the match, is not kept in the flat projection,
because its own name does not match. -/
theorem C5_directory_dropped_counterexample :
    Reachable srcTree srcDirEntry ∧ srcDirEntry.is_dir = true ∧
    flattenFilteredList ['m', 'a', 'i', 'n'] srcTree = [srcFileEntry.toFlat] ∧
    ¬ srcDirEntry.toFlat ∈ flattenFilteredList ['m', 'a', 'i', 'n'] srcTree :=
  ⟨Reachable.here (List.mem_cons_self _ _), rfl, by decide, by decide⟩

/-- Witness for C5 amended: the matching file reachable through the
non-matching expanded directory is included. -/
theorem C5_filtered_flatten_witness :
    srcFileEntry.toFlat ∈ flattenFilteredList ['m', 'a', 'i', 'n'] srcTree :=
  (C5_filtered_flatten ['m', 'a', 'i', 'n'] srcTree srcFileEntry.toFlat srcFileEntry).2
    (Reachable.child srcDirEntry (List.mem_cons_self _ _) rfl rfl
      (Reachable.here (List.mem_cons_self _ _)))
    (by decide)

/-- Demonstration document for the wrap-around search: ten lines whose only
occurrence of "foo" is on line 3 at column 2. -/
def wrapDemoMatrix : List (List Char) :=
  [['q'], ['q'], ['q'], ['x', 'x', 'f', 'o', 'o'], ['q'], ['q'], ['q'], ['q'], ['q'], ['q']]

/-- A Boolean prefix relation bounds the length of the prefix. -/
theorem isPrefixOf_length_le :
    ∀ (l₁ l₂ : List Char), l₁.isPrefixOf l₂ = true → l₁.length ≤ l₂.length := by
  intro l₁
  induction l₁ with
  | nil => intro l₂ _; simp
  | cons a as ih =>
    intro l₂ h
    cases l₂ with
    | nil => simp [List.isPrefixOf] at h
    | cons b bs =>
      simp only [List.isPrefixOf, Bool.and_eq_true] at h
      have := ih bs h.2
      simp only [List.length_cons]
      omega

/-- Over an interval list, a successful linear search returns the first
index satisfying the predicate: everything of the interval before it fails. -/
theorem find?_range'_first (p : Nat → Bool) :
    ∀ (n s a : Nat), (List.range' s n).find? p = some a →
      s ≤ a ∧ a < s + n ∧ p a = true ∧ ∀ j, s ≤ j → j < a → p j = false := by
  intro n
  induction n with
  | zero => intro s a h; simp at h
  | succ m ih =>
    intro s a h
    rw [show List.range' s (m + 1) = s :: List.range' (s + 1) m from rfl] at h
    by_cases hp : p s
    · rw [List.find?_cons_of_pos _ hp] at h
      obtain rfl : s = a := by simpa using h
      exact ⟨Nat.le_refl _, by omega, hp, fun j h1 h2 => absurd h1 (by omega)⟩
    · rw [List.find?_cons_of_neg _ (by simpa using hp)] at h
      rcases ih (s + 1) a h with ⟨h1, h2, h3, h4⟩
      rw [Bool.not_eq_true] at hp
      refine ⟨by omega, by omega, h3, ?_⟩
      intro j hj1 hj2
      rcases Nat.eq_or_lt_of_le hj1 with rfl | hlt
      · exact hp
      · exact h4 j (by omega) hj2

/-- Over an interval list, `findSome?` succeeds at the first index where the
function succeeds: the function returns nothing at all earlier indices. -/
theorem findSome?_range'_first {β : Type} (f : Nat → Option β) :
    ∀ (n s : Nat) (b : β), (List.range' s n).findSome? f = some b →
      ∃ o, s ≤ o ∧ o < s + n ∧ f o = some b ∧
        ∀ o', s ≤ o' → o' < o → f o' = none := by
  intro n
  induction n with
  | zero => intro s b h; simp at h
  | succ m ih =>
    intro s b h
    rw [show List.range' s (m + 1) = s :: List.range' (s + 1) m from rfl] at h
    cases hf : f s with
    | some v =>
      have hcons : (s :: List.range' (s + 1) m).findSome? f = some v := by
        simp [List.findSome?, hf]
      rw [hcons] at h
      refine ⟨s, Nat.le_refl _, by omega, ?_, ?_⟩
      · rw [hf, h]
      · intro o' h1 h2; omega
    | none =>
      have hcons : (s :: List.range' (s + 1) m).findSome? f =
          (List.range' (s + 1) m).findSome? f := by
        simp [List.findSome?, hf]
      rw [hcons] at h
      rcases ih (s + 1) b h with ⟨o, h1, h2, h3, h4⟩
      refine ⟨o, by omega, by omega, h3, ?_⟩
      intro o' ho1 ho2
      rcases Nat.eq_or_lt_of_le ho1 with rfl | hlt
      · exact hf
      · exact h4 o' (by omega) ho2

/-- C4: the search is sound and the first match in scan order wins — a
reported position (r, c) is a real case-insensitive match reached at some
wrap offset, no earlier column of that line at or after its scan start
matches, and no line visited at an earlier offset has any match at or after
its scan start (the caret line starts one column after the caret, later
lines at column 0); when no position of any line carries a match the search
returns nothing and the editor state is left unchanged; and concretely, in
the 10-line document whose only match is on line 3, starting from the caret
at line 9 column 0 the wrap-around scan still finds (3, 2), a query with no
occurrence yields no movement, and a match lying at or before the caret
column on the caret's own line is not found because the scan starts one
column after the caret. -/
theorem C4_search_next_match (matrix : List (List Char)) (q : List Char)
    (curRow curCol r c : Nat) :
    (navigate_to_next_match matrix q curRow curCol = some (r, c) →
      r < matrix.length ∧
      (q.flatMap charToLowercase).isPrefixOf
        (((matrix.getD r []).flatMap charToLowercase).drop c) = true ∧
      ∃ offset, offset < matrix.length ∧ (curRow + offset) % matrix.length = r ∧
        (∀ j, (if offset == 0 then curCol + 1 else 0) ≤ j → j < c →
          (q.flatMap charToLowercase).isPrefixOf
            (((matrix.getD r []).flatMap charToLowercase).drop j) = false) ∧
        (∀ o, o < offset → ∀ j, (if o == 0 then curCol + 1 else 0) ≤ j →
          (q.flatMap charToLowercase).isPrefixOf
            (((matrix.getD ((curRow + o) % matrix.length) []).flatMap
              charToLowercase).drop j) = false)) ∧
    ((∀ i, i < matrix.length →
        ∀ j, j ≤ ((matrix.getD i []).flatMap charToLowercase).length →
        (q.flatMap charToLowercase).isPrefixOf
          (((matrix.getD i []).flatMap charToLowercase).drop j) = false) →
      navigate_to_next_match matrix q curRow curCol = none) ∧
    navigate_to_next_match wrapDemoMatrix ['F', 'o', 'o'] 9 0 = some (3, 2) ∧
    navigate_to_next_match wrapDemoMatrix ['z'] 9 0 = none ∧
    navigate_to_next_match [['f', 'o', 'o']] ['f', 'o', 'o'] 0 0 = none := by
  refine ⟨?_, ?_, by decide, by decide, by decide⟩
  · intro h
    simp only [navigate_to_next_match] at h
    split at h
    · exact absurd h (by simp)
    · rename_i hq
      have hqpos : 0 < (q.flatMap charToLowercase).length := by
        simp only [List.isEmpty_iff] at hq
        exact List.length_pos.mpr hq
      rw [List.range_eq_range'] at h
      rcases findSome?_range'_first _ matrix.length 0 (r, c) h with
        ⟨offset, _, hofflt, hf, hearlier⟩
      have htot : 0 < matrix.length := by omega
      rcases Option.map_eq_some'.mp hf with ⟨col0, hfind, heq⟩
      have hr : r = (curRow + offset) % matrix.length := by
        have := congrArg Prod.fst heq
        simpa using this.symm
      have hc : c = col0 := by
        have := congrArg Prod.snd heq
        simpa using this.symm
      subst hr hc
      unfold findMatchInLine at hfind
      split at hfind
      · rename_i hguard
        rcases find?_range'_first _ _ _ _ hfind with ⟨_, _, hp0, hfirst⟩
        refine ⟨Nat.mod_lt _ htot, hp0, offset, by omega, rfl, ?_, ?_⟩
        · intro j hj1 hj2
          exact hfirst j hj1 hj2
        · intro o ho j hj
          have hfo := hearlier o (by omega) ho
          have hinner := Option.map_eq_none.mp hfo
          rcases Bool.eq_false_or_eq_true
              ((q.flatMap charToLowercase).isPrefixOf
                (((matrix.getD ((curRow + o) % matrix.length) []).flatMap
                  charToLowercase).drop j)) with hb | hb
          · exfalso
            have hlen := isPrefixOf_length_le _ _ hb
            rw [List.length_drop] at hlen
            unfold findMatchInLine at hinner
            set so := (if (o == 0) = true then curCol + 1 else 0) with hso
            split at hinner
            · rename_i hguard2
              rw [List.find?_eq_none] at hinner
              refine (hinner j ?_) hb
              rw [List.mem_range'_1]
              have hle2 : (q.flatMap charToLowercase).length + j ≤
                  ((matrix.getD ((curRow + o) % matrix.length) []).flatMap
                    charToLowercase).length := by omega
              exact ⟨hj, by omega⟩
            · rename_i hguard2
              omega
          · exact hb
      · exact absurd hfind (by simp)
  · intro hno
    simp only [navigate_to_next_match]
    split
    · rfl
    · rw [List.findSome?_eq_none_iff]
      intro offset hmem
      have htot : 0 < matrix.length := by
        have := List.mem_range.mp hmem
        omega
      have hrlt : (curRow + offset) % matrix.length < matrix.length := Nat.mod_lt _ htot
      have hinner : findMatchInLine
          ((matrix.getD ((curRow + offset) % matrix.length) []).flatMap charToLowercase)
          (q.flatMap charToLowercase)
          (if (offset == 0) = true then curCol + 1 else 0) = none := by
        unfold findMatchInLine
        split
        · rename_i hguard
          rw [List.find?_eq_none]
          intro col hcol
          have hbound := List.mem_range'_1.mp hcol
          have hcolle : col ≤
              ((matrix.getD ((curRow + offset) % matrix.length) []).flatMap
                charToLowercase).length := by omega
          have hfalse := hno ((curRow + offset) % matrix.length) hrlt col hcolle
          intro hc
          rw [hfalse] at hc
          exact Bool.false_ne_true hc
        · rfl
      rw [hinner]
      rfl

/-- Witness for C4: the wrap-around hit at (3, 2) is a sound match, and the
no-occurrence hypothesis is discharged concretely for the query "z". -/
theorem C4_search_next_match_witness :
    (3 < wrapDemoMatrix.length ∧
      ((['F', 'o', 'o'].flatMap charToLowercase).isPrefixOf
        (((wrapDemoMatrix.getD 3 []).flatMap charToLowercase).drop 2)) = true) ∧
    navigate_to_next_match wrapDemoMatrix ['z'] 9 0 = none :=
  ⟨⟨((C4_search_next_match wrapDemoMatrix ['F', 'o', 'o'] 9 0 3 2).1 (by decide)).1,
    ((C4_search_next_match wrapDemoMatrix ['F', 'o', 'o'] 9 0 3 2).1 (by decide)).2.1⟩,
   (C4_search_next_match wrapDemoMatrix ['z'] 9 0 0 0).2.1 (by decide)⟩

end Reditor
